import Mathlib

/-!
Verification of the ferryd job-dispatch subsystem (`src/ferryd/jobs/processor.go`)
against its natural-language specification.

The dispatcher is embedded shallowly: the `Processor` struct becomes a Lean
record, goroutine-free operations become pure state transformers, and the Go
heap of `*Job` allocations becomes an explicit list indexed by natural-number
references.  The `Job` entity and the `Runnable` interface live in a source
file that is not part of the provided sources; they are modelled from the
specification where noted.

This first section proves that the decimal rendering used by `fmt.Sprintf`
with the `%d` verb (Lean's `Nat.repr`) is injective.  Job-ID generation
re-tries candidate IDs `<kind>-<unix>-<counter>` until one is absent from the
live job table; termination of that retry loop rests on the injectivity of
the candidate function, which in turn rests on injectivity of `Nat.repr`.
-/

namespace Ferryd

/-- Decode a list of decimal digit characters to the natural number it denotes. -/
def decVal (l : List Char) : Nat := l.foldl (fun a c => 10 * a + (c.toNat - 48)) 0

/-- Running `Nat.toDigitsCore` with a nonempty accumulator just appends the accumulator. -/
theorem toDigitsCore_append (f : Nat) : ∀ (n : Nat) (acc : List Char),
    Nat.toDigitsCore 10 f n acc = Nat.toDigitsCore 10 f n [] ++ acc := by
  induction f with
  | zero => intro n acc; simp [Nat.toDigitsCore]
  | succ f ih =>
    intro n acc
    simp only [Nat.toDigitsCore]
    by_cases h : n / 10 = 0
    · rw [if_pos h, if_pos h]; rfl
    · rw [if_neg h, if_neg h,
        ih (n / 10) (Nat.digitChar (n % 10) :: acc),
        ih (n / 10) [Nat.digitChar (n % 10)], List.append_assoc]
      rfl

/-- The fuel argument of `Nat.toDigitsCore` is irrelevant once it exceeds the number. -/
theorem toDigitsCore_fuel : ∀ (n f g : Nat), n < f → n < g →
    Nat.toDigitsCore 10 f n [] = Nat.toDigitsCore 10 g n [] := by
  intro n
  induction n using Nat.strong_induction_on with
  | _ n ih =>
    intro f g hf hg
    match f, g with
    | f + 1, g + 1 =>
      simp only [Nat.toDigitsCore]
      by_cases h : n / 10 = 0
      · rw [if_pos h, if_pos h]
      · have hn : 0 < n := by
          rcases Nat.eq_zero_or_pos n with rfl | hp
          · simp at h
          · exact hp
        have hd : n / 10 < n := Nat.div_lt_self hn (by decide)
        rw [if_neg h, if_neg h,
          toDigitsCore_append f (n / 10) [Nat.digitChar (n % 10)],
          toDigitsCore_append g (n / 10) [Nat.digitChar (n % 10)],
          ih (n / 10) hd f g (lt_of_lt_of_le hd (Nat.lt_succ_iff.mp hf))
            (lt_of_lt_of_le hd (Nat.lt_succ_iff.mp hg))]

/-- Appending one digit character multiplies the decoded value by ten and adds the digit. -/
theorem decVal_append_one (l : List Char) (c : Char) :
    decVal (l ++ [c]) = 10 * decVal l + (c.toNat - 48) := by
  simp [decVal, List.foldl_append]

/-- The digit characters produced by `Nat.digitChar` decode back to the digit. -/
theorem digitChar_decode : ∀ m, m < 10 → (Nat.digitChar m).toNat - 48 = m := by decide

/-- Decoding the decimal digits of a natural number recovers the number. -/
theorem decVal_toDigits : ∀ n : Nat, decVal (Nat.toDigits 10 n) = n := by
  intro n
  induction n using Nat.strong_induction_on with
  | _ n ih =>
    show decVal (Nat.toDigitsCore 10 (n + 1) n []) = n
    simp only [Nat.toDigitsCore]
    by_cases h : n / 10 = 0
    · rw [if_pos h]
      have hn : n < 10 := by omega
      have hdec := digitChar_decode (n % 10) (Nat.mod_lt n (by decide))
      have hmod : n % 10 = n := Nat.mod_eq_of_lt hn
      simp only [decVal, List.foldl]
      omega
    · have hn : 0 < n := by
        rcases Nat.eq_zero_or_pos n with rfl | hp
        · simp at h
        · exact hp
      have hd : n / 10 < n := Nat.div_lt_self hn (by decide)
      rw [if_neg h,
        toDigitsCore_append n (n / 10) [Nat.digitChar (n % 10)],
        toDigitsCore_fuel (n / 10) n (n / 10 + 1) hd (Nat.lt_succ_self _)]
      have hrec : decVal (Nat.toDigitsCore 10 (n / 10 + 1) (n / 10) []) = n / 10 := ih (n / 10) hd
      rw [decVal_append_one, hrec, digitChar_decode (n % 10) (Nat.mod_lt n (by decide))]
      omega

/-- Two naturals with the same decimal character data are equal. -/
theorem repr_dataInj (a b : Nat) (h : (Nat.repr a).data = (Nat.repr b).data) : a = b := by
  have ha : (Nat.repr a).data = Nat.toDigits 10 a := rfl
  have hb : (Nat.repr b).data = Nat.toDigits 10 b := rfl
  rw [ha, hb] at h
  have := congrArg decVal h
  rwa [decVal_toDigits, decVal_toDigits] at this

/-- String append acts as list append on the underlying character data. -/
theorem string_data_append (s t : String) : (s ++ t).data = s.data ++ t.data := by
  cases s; cases t; rfl

/-- Modelled from the spec: the status enumeration of a Job
(`StatusPending`, `StatusRunning`, `StatusSuccess`, `StatusFailed` in the
missing Job source file).  Transitions `Pending → Running → Success/Failed`. -/
inductive JStatus where
  | pending
  | running
  | success
  | failed
deriving DecidableEq, Repr

/-- Modelled from the spec: the `Runnable` interface (the Task capability) from
the missing Job source file.  `kind` is the name obtained by reflection in the
Go code (`reflect.TypeOf(job.task).Elem().Name()`); `isSequential` is the fixed
lane property `IsSequential()`; `performError` abstracts the result of
`Perform(manager)` — the manager mutations a Task performs are outside this
core, only the returned error is observable to the dispatcher.  The `Init`
hook's invocation is recorded in the dispatcher's `initLog`. -/
structure Runnable where
  kind : String
  isSequential : Bool
  performError : Option String
deriving DecidableEq, Repr

/-- Modelled from the spec: the Job entity from the missing Job source file.
It owns one Task and carries identity (`id`), status, timing
(`created`/`started`/`completed`, `none` meaning not yet set), and dependency
bookkeeping: `parents` are heap references to Jobs blocked on this Job, and
`waiting` counts this Job's own unfinished children (fan-in counter). -/
structure Job where
  id : String
  status : JStatus
  created : Option Nat
  started : Option Nat
  completed : Option Nat
  task : Runnable
  parents : List Nat
  waiting : Nat
deriving DecidableEq, Repr

instance : Inhabited Job :=
  ⟨{ id := "", status := .pending, created := none, started := none, completed := none,
     task := { kind := "", isSequential := false, performError := none },
     parents := [], waiting := 0 }⟩

/-- The `Processor` struct of `processor.go`.  Go heap pointers `*Job` become
indices into `heap` (allocations are never deallocated during a run); the
`jobTable` map becomes an association list with distinct keys; the two
channels become queues of pending job references; `seqPumps`/`bgPools` count
the goroutine groups spawned by `Begin`; `initLog` records each invocation of
a Task's `Init` hook, by job ID.  The `mut`/`wg`/`quit` synchronization
fields have no observable content in this sequentialized embedding. -/
structure Processor where
  heap : List Job
  jobTable : List (String × Nat)
  seqQueue : List Nat
  bgQueue : List Nat
  closed : Bool
  njobs : Nat
  seqPumps : Nat
  bgPools : Nat
  initLog : List String
deriving Repr

/-- The `NewProcessor` constructor: a negative job count means one background
worker per CPU core (`runtime.NumCPU()`, passed here as `numCPU`). -/
def NewProcessor (njobs : Int) (numCPU : Nat) : Processor :=
  { heap := [], jobTable := [], seqQueue := [], bgQueue := [], closed := false,
    njobs := if njobs < 0 then numCPU else njobs.toNat,
    seqPumps := 0, bgPools := 0, initLog := [] }

/-- The `Close` method: a no-op when already closed, otherwise sets `closed`.
Channel closing, quit broadcast and `wg.Wait` have no further observable
effect on the modelled state. -/
def Processor.Close (j : Processor) : Processor :=
  if j.closed then j else { j with closed := true }

/-- The `Begin` method: returns unchanged when closed, otherwise spawns one
sequential pump goroutine (`processSequentialQueue`) and one background pool
goroutine (`processBackgroundQueue`), counted by `seqPumps`/`bgPools`. -/
def Processor.Begin (j : Processor) : Processor :=
  if j.closed then j
  else { j with seqPumps := j.seqPumps + 1, bgPools := j.bgPools + 1 }

/-- Write a job back to a heap slot (a store through a Go `*Job` pointer). -/
def setJob (st : Processor) (r : Nat) (job : Job) : Processor :=
  { st with heap := st.heap.set r job }

/-- Read-modify-write of one heap slot. -/
def updJob (st : Processor) (r : Nat) (f : Job → Job) : Processor :=
  setJob st r (f (st.heap.getD r default))

/-- The `StartJob` method: a silent no-op on a closed Processor, otherwise the
job reference is sent on the lane chosen by the Task's `IsSequential()`. -/
def Processor.StartJob (st : Processor) (ref : Nat) : Processor :=
  if st.closed then st
  else if (st.heap.getD ref default).task.isSequential then
    { st with seqQueue := st.seqQueue ++ [ref] }
  else
    { st with bgQueue := st.bgQueue ++ [ref] }

/-- The `popJob` method: removes the executed job's ID from the job table. -/
def Processor.popJob (st : Processor) (id : String) : Processor :=
  { st with jobTable := st.jobTable.filter (fun e => e.1 != id) }

/-- Candidate job ID, the Go format string `"%s-%d-%d"` applied to the Task
kind, the Unix timestamp and the collision counter. -/
def render (kind : String) (unix : Nat) (c : Nat) : String :=
  kind ++ "-" ++ Nat.repr unix ++ "-" ++ Nat.repr c

/-- The candidate-ID retry loop of `initMetadata`: starting from counter `c`,
return the first counter whose rendered ID is absent from the table keys.  The
Go loop is unbounded; `fuel` makes the recursion structural, and
`idScan_spec` below proves that fuel `keys.length + 1` always suffices, so
with that fuel this is the Go loop's exact result (the least free counter). -/
def idScan (keys : List String) (kind : String) (unix : Nat) : Nat → Nat → Nat
  | 0, c => c
  | fuel + 1, c =>
    if render kind unix c ∈ keys then idScan keys kind unix fuel (c + 1) else c

/-- The `initMetadata` method: stamps `Created`, sets status `Pending` and
assigns the first ID `<kind>-<unix>-<counter>` not present in the job table.
The single `now` argument stands for both `time.Now()` and its second-level
`Unix()` value.  The dependency fields start empty (the `job.init()` call of
the missing Job source file, modelled from the spec). -/
def initMetadata (tbl : List (String × Nat)) (task : Runnable) (now : Nat) : Job :=
  let keys := tbl.map Prod.fst
  let c := idScan keys task.kind now (keys.length + 1) 0
  { id := render task.kind now c, status := .pending, created := some now,
    started := none, completed := none, task := task, parents := [], waiting := 0 }

/-- Insertion into the job table with Go map-assignment semantics: any stale
entry under the same key is replaced. -/
def tblPut (tbl : List (String × Nat)) (id : String) (r : Nat) : List (String × Nat) :=
  (id, r) :: tbl.filter (fun e => e.1 != id)

/-- The body of `pushJobInternal` after the nil check: allocate the Job,
assign metadata, invoke the Task's `Init` hook (recorded in `initLog`; any
child work an `Init` implementation submits belongs to Task code outside this
core), then — unless the Processor is closed — register the Job in the table.
Returns the heap reference, the Job value as built, and the new state. -/
def pushOk (st : Processor) (task : Runnable) (now : Nat) : Nat × Job × Processor :=
  let job := initMetadata st.jobTable task now
  let ref := st.heap.length
  let st1 := { st with heap := st.heap ++ [job], initLog := st.initLog ++ [job.id] }
  if st1.closed then (ref, job, st1)
  else (ref, job, { st1 with jobTable := tblPut st1.jobTable job.id ref })

/-- The `pushJobInternal` method.  A nil Task (`none`) is the fatal
`panic("passed nil job!")`, modelled as the error outcome of `Except`. -/
def pushJobInternal (st : Processor) (task : Option Runnable) (now : Nat) :
    Except String (Nat × Job × Processor) :=
  match task with
  | none => .error "passed nil job!"
  | some t => .ok (pushOk st t now)

/-- The `PushJobLater` method: exactly `pushJobInternal`. -/
def Processor.PushJobLater (st : Processor) (task : Option Runnable) (now : Nat) :
    Except String (Nat × Job × Processor) :=
  pushJobInternal st task now

/-- The `PushJob` method: `pushJobInternal`, then `StartJob` on the new job. -/
def Processor.PushJob (st : Processor) (task : Option Runnable) (now : Nat) :
    Except String (Nat × Job × Processor) :=
  match pushJobInternal st task now with
  | .error e => .error e
  | .ok (r, job, st') => .ok (r, job, st'.StartJob r)

/-- Modelled from the spec: a second definition of `PushJob`, written exactly
as the specification describes it — `PushJobLater` immediately followed by
`StartJob` on the returned Job — to be compared with the source definition. -/
def PushJobSpec (st : Processor) (task : Option Runnable) (now : Nat) :
    Except String (Nat × Job × Processor) :=
  match st.PushJobLater task now with
  | .error e => .error e
  | .ok (r, job, st') => .ok (r, job, st'.StartJob r)

/-- Modelled from the spec: registration of a dependency edge (the Job
source file that builds the parent/child bookkeeping is missing).  The child
records the parent as blocked on it, and the parent's fan-in counter of
unfinished children is incremented. -/
def addDependency (st : Processor) (child parent : Nat) : Processor :=
  updJob (updJob st child (fun j => { j with parents := j.parents ++ [parent] }))
    parent (fun j => { j with waiting := j.waiting + 1 })

/-- Modelled from the spec: the notification fold of `NotifyDone`.  Each
parent of the finishing child has its fan-in counter decremented; the parents
whose counter just reached zero (all their children have notified them) are
collected as the newly unblocked parents, in order. -/
def notifyAux : List Nat → List Nat → Processor → List Nat × Processor
  | [], acc, st => (acc, st)
  | p :: rest, acc, st =>
    let pj := st.heap.getD p default
    let st' := setJob st p { pj with waiting := pj.waiting - 1 }
    if pj.waiting == 1 then notifyAux rest (acc ++ [p]) st'
    else notifyAux rest acc st'

/-- Modelled from the spec: `Job.NotifyDone` — notify every parent of the
finishing Job and return exactly those parents that became fully eligible. -/
def Processor.NotifyDone (st : Processor) (ref : Nat) : List Nat × Processor :=
  notifyAux (st.heap.getD ref default).parents [] st

/-- Observable events of a single `executeJob` run, in program order: the
individual field writes, the re-submission of each unblocked parent, the
table removal, and the failure log emitted by `reportError`. -/
inductive Ev where
  | setStarted (t : Nat)
  | statusSet (s : JStatus)
  | setCompleted (t : Nat)
  | startParent (r : Nat)
  | popped (id : String)
  | failureLog (id kind err : String)
deriving DecidableEq, Repr

/-- The writes `executeJob` performs before and around `Perform`: stamp
`Started`, set status `Running`, then (after `Perform` returns) stamp
`Completed`. -/
def afterPerform (st : Processor) (ref : Nat) (t1 t2 : Nat) : Processor :=
  updJob (updJob (updJob st ref (fun j => { j with started := some t1 }))
      ref (fun j => { j with status := .running }))
    ref (fun j => { j with completed := some t2 })

/-- The parents reported as newly unblocked by the finishing Job's
`NotifyDone`, exactly as `executeJob` computes them after stamping
`Completed`. -/
def freedParents (st : Processor) (ref : Nat) (t1 t2 : Nat) : List Nat :=
  ((afterPerform st ref t1 t2).NotifyDone ref).1

/-- The state `executeJob` reaches just before setting the terminal status:
timing/`Running` writes, the `NotifyDone` fan-in updates, `StartJob` on each
unblocked parent, and the `popJob` table removal. -/
def execMid (st : Processor) (ref : Nat) (t1 t2 : Nat) : Processor :=
  (((freedParents st ref t1 t2).foldl Processor.StartJob
      ((afterPerform st ref t1 t2).NotifyDone ref).2).popJob
    (st.heap.getD ref default).id)

/-- The `executeJob` method with the result of `Perform` made an explicit
parameter: stamp `Started`/`Running`, run the Task, stamp `Completed`, ask
the Job which parents are now unblocked and `StartJob` each of them, remove
the Job from the table, and finally set the terminal status — `StatusFailed`
plus the `reportError` log on error, else `StatusSuccess`.  Returns the new
state and the event trace in program order. -/
def executeJobErr (st : Processor) (ref : Nat) (t1 t2 : Nat) (err : Option String) :
    Processor × List Ev :=
  match err with
  | some e =>
    (updJob (execMid st ref t1 t2) ref (fun j => { j with status := .failed }),
     [Ev.setStarted t1, Ev.statusSet .running, Ev.setCompleted t2]
       ++ (freedParents st ref t1 t2).map Ev.startParent
       ++ [Ev.popped (st.heap.getD ref default).id, Ev.statusSet .failed,
           Ev.failureLog (st.heap.getD ref default).id
             (st.heap.getD ref default).task.kind e])
  | none =>
    (updJob (execMid st ref t1 t2) ref (fun j => { j with status := .success }),
     [Ev.setStarted t1, Ev.statusSet .running, Ev.setCompleted t2]
       ++ (freedParents st ref t1 t2).map Ev.startParent
       ++ [Ev.popped (st.heap.getD ref default).id, Ev.statusSet .success])

/-- The `executeJob` method: `executeJobErr` at the error actually returned by
the Task's `Perform`. -/
def Processor.executeJob (st : Processor) (ref : Nat) (t1 t2 : Nat) :
    Processor × List Ev :=
  executeJobErr st ref t1 t2 (st.heap.getD ref default).task.performError

/-- Push a list of tasks in order through `pushOk`, with no removals in
between, returning the created Jobs. -/
def pushMany (st : Processor) (tasks : List Runnable) (now : Nat) :
    List Job × Processor :=
  match tasks with
  | [] => ([], st)
  | t :: rest =>
    let out := pushOk st t now
    let res := pushMany out.2.2 rest now
    (out.2.1 :: res.1, res.2)

/-- States of a Processor reachable through the dispatcher's operations,
starting from `NewProcessor`.  `StartJob`, `executeJob` and dependency
registration are applied to allocated job references, as the program only
ever passes `*Job` pointers it created. -/
inductive Reachable : Processor → Prop where
  | new : ∀ njobs numCPU, Reachable (NewProcessor njobs numCPU)
  | push : ∀ st task now, Reachable st → Reachable (pushOk st task now).2.2
  | start : ∀ st ref, Reachable st → ref < st.heap.length →
      Reachable (st.StartJob ref)
  | exec : ∀ st ref t1 t2, Reachable st → ref < st.heap.length →
      Reachable (st.executeJob ref t1 t2).1
  | close : ∀ st, Reachable st → Reachable st.Close
  | begin : ∀ st, Reachable st → Reachable st.Begin
  | dep : ∀ st c p, Reachable st → c < st.heap.length → p < st.heap.length →
      Reachable (addDependency st c p)

/-- Well-formedness of the job table: every entry points at an allocated heap
slot holding a Job with that ID, and keys are pairwise distinct. -/
def WF (st : Processor) : Prop :=
  (∀ e ∈ st.jobTable, e.2 < st.heap.length ∧ (st.heap.getD e.2 default).id = e.1) ∧
  (st.jobTable.map Prod.fst).Nodup

/-- Every Job registered in the live job table is in a non-terminal state. -/
def TableNonTerminal (st : Processor) : Prop :=
  ∀ e ∈ st.jobTable, (st.heap.getD e.2 default).status = JStatus.pending ∨
    (st.heap.getD e.2 default).status = JStatus.running

/-- For a fixed kind and timestamp, distinct counters render distinct IDs. -/
theorem render_inj (kind : String) (unix : Nat) (a b : Nat)
    (h : render kind unix a = render kind unix b) : a = b := by
  apply repr_dataInj
  have h2 := congrArg String.data h
  simp only [render, string_data_append] at h2
  exact List.append_cancel_left h2

/-- Pigeonhole: among the first `keys.length + 1` candidate IDs at least one
is absent from `keys`, because candidates are pairwise distinct. -/
theorem exists_free (keys : List String) (kind : String) (unix : Nat) :
    ∃ j, j ≤ keys.length ∧ render kind unix j ∉ keys := by
  by_contra hc
  push_neg at hc
  have hsub : ((List.range (keys.length + 1)).map (render kind unix)) ⊆ keys := by
    intro s hs
    rcases List.mem_map.mp hs with ⟨j, hj, rfl⟩
    exact hc j (Nat.lt_succ_iff.mp (List.mem_range.mp hj))
  have hnd : ((List.range (keys.length + 1)).map (render kind unix)).Nodup :=
    (List.nodup_range _).map (fun a b hab => render_inj kind unix a b hab)
  have h1 : ((List.range (keys.length + 1)).map (render kind unix)).toFinset.card
      = keys.length + 1 := by
    rw [List.toFinset_card_of_nodup hnd, List.length_map, List.length_range]
  have h2 : ((List.range (keys.length + 1)).map (render kind unix)).toFinset
      ⊆ keys.toFinset := by
    intro x hx
    exact List.mem_toFinset.mpr (hsub (List.mem_toFinset.mp hx))
  have h3 := Finset.card_le_card h2
  have h4 : keys.toFinset.card ≤ keys.length := keys.toFinset_card_le
  omega

/-- Correctness of the candidate retry loop: whenever some candidate within
the available fuel is free, the loop stops at the least free counter at or
beyond its starting point. -/
theorem idScan_spec (keys : List String) (kind : String) (unix : Nat) :
    ∀ (fuel c : Nat), (∃ j, j ≤ fuel ∧ render kind unix (c + j) ∉ keys) →
    render kind unix (idScan keys kind unix fuel c) ∉ keys ∧
    c ≤ idScan keys kind unix fuel c ∧
    (∀ m, c ≤ m → m < idScan keys kind unix fuel c → render kind unix m ∈ keys) := by
  intro fuel
  induction fuel with
  | zero =>
    rintro c ⟨j, hj, hfree⟩
    interval_cases j
    simp only [idScan]
    exact ⟨by simpa using hfree, Nat.le_refl c, fun m h1 h2 => absurd (lt_of_le_of_lt h1 h2) (lt_irrefl c)⟩
  | succ fuel ih =>
    rintro c ⟨j, hj, hfree⟩
    by_cases hc : render kind unix c ∈ keys
    · have hj0 : j ≠ 0 := by
        rintro rfl
        simp only [Nat.add_zero] at hfree
        exact hfree hc
      obtain ⟨j', rfl⟩ := Nat.exists_eq_succ_of_ne_zero hj0
      have hrec := ih (c + 1) ⟨j', by omega, by
        have : c + 1 + j' = c + (j' + 1) := by omega
        rwa [this]⟩
      simp only [idScan, if_pos hc]
      refine ⟨hrec.1, by omega, fun m h1 h2 => ?_⟩
      rcases Nat.eq_or_lt_of_le h1 with heq | h1'
      · exact heq ▸ hc
      · exact hrec.2.2 m h1' (by simpa [idScan, if_pos hc] using h2)
    · simp only [idScan, if_neg hc]
      exact ⟨hc, Nat.le_refl c, fun m h1 h2 => absurd (lt_of_le_of_lt h1 h2) (lt_irrefl c)⟩

/-- The ID assigned by `initMetadata` uses the least counter whose rendered
candidate is absent from the job table: the Go retry loop's result. -/
theorem initMetadata_least (tbl : List (String × Nat)) (task : Runnable) (now : Nat) :
    ∃ c, (initMetadata tbl task now).id = render task.kind now c ∧
      render task.kind now c ∉ tbl.map Prod.fst ∧
      (∀ m, m < c → render task.kind now m ∈ tbl.map Prod.fst) := by
  obtain ⟨j, hj, hfree⟩ := exists_free (tbl.map Prod.fst) task.kind now
  have hspec := idScan_spec (tbl.map Prod.fst) task.kind now ((tbl.map Prod.fst).length + 1) 0
    ⟨j, by omega, by simpa using hfree⟩
  exact ⟨idScan (tbl.map Prod.fst) task.kind now ((tbl.map Prod.fst).length + 1) 0,
    rfl, hspec.1, fun m hm => hspec.2.2 m (Nat.zero_le m) hm⟩

/-- The Job value returned by `pushOk` is the one built by `initMetadata`. -/
theorem pushOk_job (st : Processor) (task : Runnable) (now : Nat) :
    (pushOk st task now).2.1 = initMetadata st.jobTable task now := by
  by_cases hc : st.closed <;> simp [pushOk, hc]

/-- The reference returned by `pushOk` is the fresh heap slot. -/
theorem pushOk_ref (st : Processor) (task : Runnable) (now : Nat) :
    (pushOk st task now).1 = st.heap.length := by
  by_cases hc : st.closed <;> simp [pushOk, hc]

/-- The ID assigned at job creation is absent from the live job table. -/
theorem pushOk_id_fresh (st : Processor) (task : Runnable) (now : Nat) :
    (pushOk st task now).2.1.id ∉ st.jobTable.map Prod.fst := by
  rw [pushOk_job]
  obtain ⟨c, hid, hfree, _⟩ := initMetadata_least st.jobTable task now
  rw [hid]
  exact hfree

/-- Filtering out a key that is not present leaves the table unchanged. -/
theorem filter_of_fresh (tbl : List (String × Nat)) (id : String)
    (h : id ∉ tbl.map Prod.fst) : tbl.filter (fun e => e.1 != id) = tbl := by
  apply List.filter_eq_self.mpr
  intro e he
  have : e.1 ≠ id := fun heq => h (heq ▸ List.mem_map_of_mem Prod.fst he)
  simpa [bne] using this

/-- Field bookkeeping of `pushOk` on an open Processor. -/
theorem pushOk_open (st : Processor) (task : Runnable) (now : Nat)
    (h : st.closed = false) :
    (pushOk st task now).2.2 =
      { st with heap := st.heap ++ [(pushOk st task now).2.1],
                initLog := st.initLog ++ [(pushOk st task now).2.1.id],
                jobTable := tblPut st.jobTable (pushOk st task now).2.1.id
                  st.heap.length } := by
  simp [pushOk, h]

/-- Field bookkeeping of `pushOk` on a closed Processor. -/
theorem pushOk_closed (st : Processor) (task : Runnable) (now : Nat)
    (h : st.closed = true) :
    (pushOk st task now).2.2 =
      { st with heap := st.heap ++ [(pushOk st task now).2.1],
                initLog := st.initLog ++ [(pushOk st task now).2.1.id] } := by
  simp [pushOk, h]

/-- Creation on an open Processor conses the fresh ID onto the table keys. -/
theorem pushOk_keys (st : Processor) (task : Runnable) (now : Nat)
    (h : st.closed = false) :
    (pushOk st task now).2.2.jobTable.map Prod.fst =
      (pushOk st task now).2.1.id :: st.jobTable.map Prod.fst := by
  rw [pushOk_open st task now h]
  simp only [tblPut, List.map_cons]
  rw [filter_of_fresh st.jobTable _ (pushOk_id_fresh st task now)]

/-- Creation never flips the `closed` flag. -/
theorem pushOk_closed_flag (st : Processor) (task : Runnable) (now : Nat) :
    (pushOk st task now).2.2.closed = st.closed := by
  by_cases hc : st.closed <;> simp [pushOk, hc]

/-- Pushing a sequence of tasks with no intervening removals: earlier table
keys survive, the created IDs are pairwise distinct, and every created ID is
new relative to the starting table. -/
theorem pushMany_spec (tasks : List Runnable) : ∀ (st : Processor) (now : Nat),
    st.closed = false →
    (∀ s ∈ st.jobTable.map Prod.fst, s ∈ (pushMany st tasks now).2.jobTable.map Prod.fst) ∧
    ((pushMany st tasks now).1.map Job.id).Nodup ∧
    (∀ i ∈ (pushMany st tasks now).1.map Job.id, i ∉ st.jobTable.map Prod.fst) := by
  induction tasks with
  | nil => intro st now _; exact ⟨fun s hs => hs, List.nodup_nil, by simp [pushMany]⟩
  | cons t rest ih =>
    intro st now h
    have hfresh := pushOk_id_fresh st t now
    have hkeys := pushOk_keys st t now h
    have hflag : (pushOk st t now).2.2.closed = false := by
      rw [pushOk_closed_flag]; exact h
    obtain ⟨ihA, ihB, ihC⟩ := ih (pushOk st t now).2.2 now hflag
    have hmono : ∀ s ∈ st.jobTable.map Prod.fst,
        s ∈ (pushMany (pushOk st t now).2.2 rest now).2.jobTable.map Prod.fst := by
      intro s hs
      exact ihA s (by rw [hkeys]; exact List.mem_cons_of_mem _ hs)
    have hid_in : (pushOk st t now).2.1.id ∈ (pushOk st t now).2.2.jobTable.map Prod.fst := by
      rw [hkeys]; exact List.mem_cons_self _ _
    refine ⟨?_, ?_, ?_⟩
    · intro s hs
      simp only [pushMany]
      exact hmono s hs
    · simp only [pushMany, List.map_cons, List.nodup_cons]
      constructor
      · intro hmem
        exact (ihC _ hmem) hid_in
      · exact ihB
    · intro i hi
      simp only [pushMany, List.map_cons, List.mem_cons] at hi
      rcases hi with rfl | hi
      · exact hfresh
      · intro hmem
        exact (ihC i hi) (by rw [hkeys]; exact List.mem_cons_of_mem _ hmem)

/-- A sequential Task of kind `Delta` whose `Perform` succeeds, used as a
concrete input for the identity-allocation scenarios. -/
def taskDelta : Runnable := { kind := "Delta", isSequential := true, performError := none }

/-- First creation: a `Delta` Job pushed at Unix second 100. -/
def c3push1 : Nat × Job × Processor := pushOk (NewProcessor 0 4) taskDelta 100

/-- The state after that Job executed (and was removed from the job table). -/
def c3afterExec : Processor := (c3push1.2.2.executeJob c3push1.1 100 100).1

/-- Second creation, still within Unix second 100, after the removal. -/
def c3push2 : Nat × Job × Processor := pushOk c3afterExec taskDelta 100

/-- C3 counterexample: two distinct Jobs (separate allocations, references 0
and 1) created during the lifetime of a single Dispatcher receive the same ID
`Delta-100-0`, because the first completed and left the live job table before
the second was created within the same Unix second — ID generation only
consults the live table. -/
theorem jobId_reuse_cex :
    c3push1.1 ≠ c3push2.1 ∧ c3push1.2.1.id = c3push2.2.1.id ∧
    c3push1.2.1.id = "Delta-100-0" := by decide

/-- C3 amended: Jobs created with no intervening removal always receive
pairwise distinct IDs, distinct also from every ID currently in the live job
table — in particular ≥1000 Jobs of one Task kind created within one second
get distinct IDs while all stay live; uniqueness however is relative to the
live table, not the Dispatcher's whole lifetime. -/
theorem jobIds_distinct_while_live (st : Processor) (tasks : List Runnable) (now : Nat)
    (h : st.closed = false) :
    ((pushMany st tasks now).1.map Job.id).Nodup ∧
    ∀ i ∈ (pushMany st tasks now).1.map Job.id, i ∉ st.jobTable.map Prod.fst := by
  obtain ⟨_, hB, hC⟩ := pushMany_spec tasks st now h
  exact ⟨hB, hC⟩

/-- Witness for the amended C3 claim: three same-kind Jobs created at the
same Unix second on a fresh Dispatcher have pairwise distinct IDs. -/
theorem jobIds_distinct_while_live_witness :
    (((pushMany (NewProcessor 0 4) [taskDelta, taskDelta, taskDelta] 100).1.map Job.id)).Nodup ∧
    ∀ i ∈ (pushMany (NewProcessor 0 4) [taskDelta, taskDelta, taskDelta] 100).1.map Job.id,
      i ∉ (NewProcessor 0 4).jobTable.map Prod.fst :=
  jobIds_distinct_while_live (NewProcessor 0 4) [taskDelta, taskDelta, taskDelta] 100 rfl

/-- C4 counterexample: `Begin` has no started-flag guard — a second call on a
started, open Processor spawns an additional sequential pump and background
pool (the spawn counter reaches 2) and so is not a no-op. -/
theorem begin_not_idempotent_cex :
    ((NewProcessor 0 4).Begin.Begin).seqPumps = 2 ∧
    ((NewProcessor 0 4).Begin).seqPumps = 1 ∧
    (NewProcessor 0 4).Begin.Begin ≠ (NewProcessor 0 4).Begin := by
  refine ⟨rfl, rfl, fun h => ?_⟩
  have h2 : (2 : Nat) = 1 := congrArg Processor.seqPumps h
  exact absurd h2 (by decide)

/-- C4 amended: calling `Begin` on a closed Processor is a no-op, but on an
open Processor every call — including a repeated one — spawns one more
sequential pump and one more background worker pool. -/
theorem begin_closed_noop_open_spawns (st : Processor) :
    (st.closed = true → st.Begin = st) ∧
    (st.closed = false →
      st.Begin.seqPumps = st.seqPumps + 1 ∧ st.Begin.bgPools = st.bgPools + 1 ∧
      st.Begin.Begin.seqPumps = st.seqPumps + 2) := by
  constructor
  · intro h; simp [Processor.Begin, h]
  · intro h; simp [Processor.Begin, h]

/-- Witness for the amended C4 claim at concrete closed and open states. -/
theorem begin_closed_noop_open_spawns_witness :
    (NewProcessor 0 4).Close.Begin = (NewProcessor 0 4).Close ∧
    ((NewProcessor 0 4).Begin).seqPumps = 1 :=
  ⟨(begin_closed_noop_open_spawns (NewProcessor 0 4).Close).1 rfl,
   ((begin_closed_noop_open_spawns (NewProcessor 0 4)).2 rfl).1⟩

/-- C6: `PushJob` is observationally equal to `PushJobLater` immediately
followed by `StartJob` on the returned Job — the same Job, job-table state
and queue placement, for every task (including the nil task) and state. -/
theorem pushJob_eq_pushJobLater_then_startJob (st : Processor) (task : Option Runnable)
    (now : Nat) : st.PushJob task now = PushJobSpec st task now := by
  cases task <;> rfl

/-- C7: submitting a nil Task through any of the submission entry points is
the fatal `panic("passed nil job!")`, not a silent success or an error value
returned to the caller. -/
theorem nil_task_aborts (st : Processor) (now : Nat) :
    pushJobInternal st none now = Except.error "passed nil job!" ∧
    st.PushJob none now = Except.error "passed nil job!" ∧
    st.PushJobLater none now = Except.error "passed nil job!" :=
  ⟨rfl, rfl, rfl⟩

/-- Setting a slot in range and reading it back yields the stored job. -/
theorem getD_set_self : ∀ (l : List Job) (r : Nat) (a : Job), r < l.length →
    (l.set r a).getD r default = a := by
  intro l
  induction l with
  | nil => intro r a h; simp at h
  | cons x xs ih =>
    intro r a h
    cases r with
    | zero => rfl
    | succ r => exact ih r a (by simpa using h)

/-- Setting one slot leaves every other slot unchanged. -/
theorem getD_set_ne : ∀ (l : List Job) (r s : Nat) (a : Job), r ≠ s →
    (l.set r a).getD s default = l.getD s default := by
  intro l
  induction l with
  | nil => intro r s a _; rfl
  | cons x xs ih =>
    intro r s a h
    cases r with
    | zero =>
      cases s with
      | zero => exact absurd rfl h
      | succ s => rfl
    | succ r =>
      cases s with
      | zero => rfl
      | succ s => exact ih r s a (fun he => h (by rw [he]))

/-- Appending on the right does not disturb slots of the original list. -/
theorem getD_append_lt : ∀ (l l' : List Job) (r : Nat), r < l.length →
    (l ++ l').getD r default = l.getD r default := by
  intro l
  induction l with
  | nil => intro l' r h; simp at h
  | cons x xs ih =>
    intro l' r h
    cases r with
    | zero => rfl
    | succ r => exact ih l' r (by simpa using h)

/-- The freshly appended slot holds the appended job. -/
theorem getD_append_len : ∀ (l : List Job) (a : Job),
    (l ++ [a]).getD l.length default = a := by
  intro l
  induction l with
  | nil => intro a; rfl
  | cons x xs ih => intro a; exact ih a

/-- `StartJob` only touches the queues: the heap is unchanged. -/
theorem startJob_heap (st : Processor) (r : Nat) : (st.StartJob r).heap = st.heap := by
  unfold Processor.StartJob
  split
  · rfl
  · split <;> rfl

/-- `StartJob` only touches the queues: the job table is unchanged. -/
theorem startJob_table (st : Processor) (r : Nat) :
    (st.StartJob r).jobTable = st.jobTable := by
  unfold Processor.StartJob
  split
  · rfl
  · split <;> rfl

/-- Folding `StartJob` over a list of references leaves the heap unchanged. -/
theorem foldl_startJob_heap : ∀ (ps : List Nat) (st : Processor),
    (ps.foldl Processor.StartJob st).heap = st.heap := by
  intro ps
  induction ps with
  | nil => intro st; rfl
  | cons p ps ih => intro st; rw [List.foldl_cons, ih, startJob_heap]

/-- Folding `StartJob` over a list of references leaves the table unchanged. -/
theorem foldl_startJob_table : ∀ (ps : List Nat) (st : Processor),
    (ps.foldl Processor.StartJob st).jobTable = st.jobTable := by
  intro ps
  induction ps with
  | nil => intro st; rfl
  | cons p ps ih => intro st; rw [List.foldl_cons, ih, startJob_table]

/-- The `NotifyDone` fold touches only fan-in counters: the table, queues,
flag and heap length are unchanged, and every slot keeps its identity,
status, task and timing. -/
theorem notifyAux_preserves : ∀ (ps acc : List Nat) (st : Processor),
    (notifyAux ps acc st).2.jobTable = st.jobTable ∧
    (notifyAux ps acc st).2.heap.length = st.heap.length ∧
    ∀ r, ((notifyAux ps acc st).2.heap.getD r default).id = (st.heap.getD r default).id ∧
      ((notifyAux ps acc st).2.heap.getD r default).status = (st.heap.getD r default).status ∧
      ((notifyAux ps acc st).2.heap.getD r default).task = (st.heap.getD r default).task := by
  intro ps
  induction ps with
  | nil => intro acc st; exact ⟨rfl, rfl, fun r => ⟨rfl, rfl, rfl⟩⟩
  | cons p rest ih =>
    intro acc st
    have hstep : ∀ (st' : Processor) (pj' : Job),
        pj' = { st'.heap.getD p default with
                waiting := (st'.heap.getD p default).waiting - 1 } →
        ∀ r, ((setJob st' p pj').heap.getD r default).id = (st'.heap.getD r default).id ∧
          ((setJob st' p pj').heap.getD r default).status
            = (st'.heap.getD r default).status ∧
          ((setJob st' p pj').heap.getD r default).task = (st'.heap.getD r default).task := by
      intro st' pj' hpj r
      by_cases hrp : p = r
      · subst hrp
        by_cases hlt : p < st'.heap.length
        · rw [show (setJob st' p pj').heap = st'.heap.set p pj' from rfl,
            getD_set_self st'.heap p pj' hlt, hpj]
          exact ⟨rfl, rfl, rfl⟩
        · have : st'.heap.set p pj' = st'.heap := by
            apply List.set_eq_of_length_le
            omega
          rw [show (setJob st' p pj').heap = st'.heap.set p pj' from rfl, this]
          exact ⟨rfl, rfl, rfl⟩
      · rw [show (setJob st' p pj').heap = st'.heap.set p pj' from rfl,
          getD_set_ne st'.heap p r pj' hrp]
        exact ⟨rfl, rfl, rfl⟩
    simp only [notifyAux]
    by_cases hw : (st.heap.getD p default).waiting == 1
    · rw [if_pos hw]
      obtain ⟨hA, hB, hC⟩ := ih (acc ++ [p]) (setJob st p
        { st.heap.getD p default with waiting := (st.heap.getD p default).waiting - 1 })
      refine ⟨hA.trans rfl, hB.trans (by simp [setJob]), fun r => ?_⟩
      obtain ⟨h1, h2, h3⟩ := hC r
      obtain ⟨g1, g2, g3⟩ := hstep st _ rfl r
      exact ⟨h1.trans g1, h2.trans g2, h3.trans g3⟩
    · rw [if_neg hw]
      obtain ⟨hA, hB, hC⟩ := ih acc (setJob st p
        { st.heap.getD p default with waiting := (st.heap.getD p default).waiting - 1 })
      refine ⟨hA.trans rfl, hB.trans (by simp [setJob]), fun r => ?_⟩
      obtain ⟨h1, h2, h3⟩ := hC r
      obtain ⟨g1, g2, g3⟩ := hstep st _ rfl r
      exact ⟨h1.trans g1, h2.trans g2, h3.trans g3⟩

/-- The pre-`Perform` and post-`Perform` writes leave the heap length alone. -/
theorem afterPerform_len (st : Processor) (ref t1 t2 : Nat) :
    (afterPerform st ref t1 t2).heap.length = st.heap.length := by
  simp [afterPerform, updJob, setJob]

/-- The writes around `Perform` leave the job table alone. -/
theorem afterPerform_table (st : Processor) (ref t1 t2 : Nat) :
    (afterPerform st ref t1 t2).jobTable = st.jobTable := rfl

/-- What the executing Job's slot holds after the writes around `Perform`. -/
theorem afterPerform_getD_self (st : Processor) (ref t1 t2 : Nat)
    (h : ref < st.heap.length) :
    (afterPerform st ref t1 t2).heap.getD ref default =
      { st.heap.getD ref default with
        started := some t1, status := JStatus.running, completed := some t2 } := by
  unfold afterPerform updJob setJob
  simp only
  rw [getD_set_self _ ref _ (by simpa using h), getD_set_self _ ref _ (by simpa using h),
    getD_set_self _ ref _ (by simpa using h)]

/-- The writes around `Perform` leave every other slot unchanged. -/
theorem afterPerform_getD_ne (st : Processor) (ref t1 t2 r : Nat) (h : r ≠ ref) :
    (afterPerform st ref t1 t2).heap.getD r default = st.heap.getD r default := by
  unfold afterPerform updJob setJob
  simp only
  rw [getD_set_ne _ ref r _ (fun he => h he.symm), getD_set_ne _ ref r _ (fun he => h he.symm),
    getD_set_ne _ ref r _ (fun he => h he.symm)]

/-- The table removal of `popJob` leaves the heap alone. -/
theorem popJob_heap (st : Processor) (id : String) : (st.popJob id).heap = st.heap := rfl

/-- The heap length is unchanged up to the point the terminal status is set. -/
theorem execMid_len (st : Processor) (ref t1 t2 : Nat) :
    (execMid st ref t1 t2).heap.length = st.heap.length := by
  unfold execMid
  rw [popJob_heap, foldl_startJob_heap]
  exact ((notifyAux_preserves _ [] _).2.1).trans (afterPerform_len st ref t1 t2)

/-- Setting a Job's status through a heap slot stores exactly that status. -/
theorem updJob_status_getD (st : Processor) (ref : Nat) (s : JStatus)
    (h : ref < st.heap.length) :
    ((updJob st ref (fun j => { j with status := s })).heap.getD ref default).status = s := by
  unfold updJob setJob
  simp only
  rw [getD_set_self _ ref _ (by simpa using h)]

/-- Recognizer for the trace events that set a terminal status. -/
def isTerminalSet : Ev → Bool
  | .statusSet .success => true
  | .statusSet .failed => true
  | _ => false

/-- Parent re-submission events never set a status. -/
theorem countP_startParent_map (L : List Nat) :
    (L.map Ev.startParent).countP isTerminalSet = 0 := by
  induction L with
  | nil => rfl
  | cons x xs ih => simp [List.countP_cons, isTerminalSet, ih]

/-- Extracting the re-submitted references from the re-submission events. -/
theorem filterMap_startParent_map (L : List Nat) :
    (L.map Ev.startParent).filterMap
      (fun e => match e with | Ev.startParent r => some r | _ => none) = L := by
  induction L with
  | nil => rfl
  | cons x xs ih => simp only [List.map_cons, List.filterMap_cons, ih]

/-- C1: when `executeJob` returns, the Job's status is `Failed` exactly when
`Perform` returned an error and `Success` when it returned nil; the trace
sets a terminal status exactly once, and the `Completed` timestamp write
occurs strictly before that terminal status write. -/
theorem executeJob_terminal_status (st : Processor) (ref t1 t2 : Nat)
    (h : ref < st.heap.length) :
    ((st.executeJob ref t1 t2).1.heap.getD ref default).status =
      (if (st.heap.getD ref default).task.performError.isSome then JStatus.failed
       else JStatus.success) ∧
    (st.executeJob ref t1 t2).2.countP isTerminalSet = 1 ∧
    ∃ l1 l2, (st.executeJob ref t1 t2).2 = l1 ++ Ev.setCompleted t2 :: l2 ∧
      l1.countP isTerminalSet = 0 ∧ l2.countP isTerminalSet = 1 := by
  have hlen : ref < (execMid st ref t1 t2).heap.length := by rw [execMid_len]; exact h
  cases herr : (st.heap.getD ref default).task.performError with
  | none =>
    refine ⟨?_, ?_, ?_⟩
    · simp only [Processor.executeJob, herr, executeJobErr, Option.isSome_none,
        Bool.false_eq_true, if_false]
      exact updJob_status_getD _ ref JStatus.success hlen
    · simp only [Processor.executeJob, herr, executeJobErr]
      simp [List.countP_append, List.countP_cons, countP_startParent_map, isTerminalSet]
    · refine ⟨[Ev.setStarted t1, Ev.statusSet JStatus.running],
        (freedParents st ref t1 t2).map Ev.startParent
          ++ [Ev.popped (st.heap.getD ref default).id, Ev.statusSet JStatus.success],
        ?_, ?_, ?_⟩
      · simp only [Processor.executeJob, herr, executeJobErr]
        simp
      · simp [List.countP_cons, isTerminalSet]
      · simp [List.countP_append, List.countP_cons, countP_startParent_map, isTerminalSet]
  | some e =>
    refine ⟨?_, ?_, ?_⟩
    · simp only [Processor.executeJob, herr, executeJobErr, Option.isSome_some, if_true]
      exact updJob_status_getD _ ref JStatus.failed hlen
    · simp only [Processor.executeJob, herr, executeJobErr]
      simp [List.countP_append, List.countP_cons, countP_startParent_map, isTerminalSet]
    · refine ⟨[Ev.setStarted t1, Ev.statusSet JStatus.running],
        (freedParents st ref t1 t2).map Ev.startParent
          ++ [Ev.popped (st.heap.getD ref default).id, Ev.statusSet JStatus.failed,
              Ev.failureLog (st.heap.getD ref default).id
                (st.heap.getD ref default).task.kind e],
        ?_, ?_, ?_⟩
      · simp only [Processor.executeJob, herr, executeJobErr]
        simp
      · simp [List.countP_cons, isTerminalSet]
      · simp [List.countP_append, List.countP_cons, countP_startParent_map, isTerminalSet]

/-- A failing sequential Task used as concrete input for execution claims. -/
def taskFail : Runnable := { kind := "Delta", isSequential := false, performError := some "disk full" }

/-- Witness for C1: executing a freshly pushed failing Job at reference 0. -/
theorem executeJob_terminal_status_witness :
    (((pushOk (NewProcessor 0 4) taskFail 50).2.2.executeJob 0 50 51).1.heap.getD 0
        default).status =
      (if ((pushOk (NewProcessor 0 4) taskFail 50).2.2.heap.getD 0
          default).task.performError.isSome then JStatus.failed else JStatus.success) ∧
    ((pushOk (NewProcessor 0 4) taskFail 50).2.2.executeJob 0 50 51).2.countP
      isTerminalSet = 1 ∧
    ∃ l1 l2, ((pushOk (NewProcessor 0 4) taskFail 50).2.2.executeJob 0 50 51).2
        = l1 ++ Ev.setCompleted 51 :: l2 ∧
      l1.countP isTerminalSet = 0 ∧ l2.countP isTerminalSet = 1 :=
  executeJob_terminal_status (pushOk (NewProcessor 0 4) taskFail 50).2.2 0 50 51 (by decide)

/-- C2: the parents reported as unblocked by the finishing Job's completion
notification are exactly the ones re-submitted (as `startParent` events and
as `StartJob` queue placements), and — since `err` appears on no right-hand
side — this holds regardless of whether `Perform` returned an error. -/
theorem executeJob_resubmits_parents_regardless (st : Processor) (ref t1 t2 : Nat)
    (err : Option String) :
    (executeJobErr st ref t1 t2 err).2.filterMap
        (fun e => match e with | Ev.startParent r => some r | _ => none)
      = freedParents st ref t1 t2 ∧
    (executeJobErr st ref t1 t2 err).1.seqQueue =
      ((freedParents st ref t1 t2).foldl Processor.StartJob
        ((afterPerform st ref t1 t2).NotifyDone ref).2).seqQueue ∧
    (executeJobErr st ref t1 t2 err).1.bgQueue =
      ((freedParents st ref t1 t2).foldl Processor.StartJob
        ((afterPerform st ref t1 t2).NotifyDone ref).2).bgQueue ∧
    st.executeJob ref t1 t2
      = executeJobErr st ref t1 t2 (st.heap.getD ref default).task.performError := by
  refine ⟨?_, ?_, ?_, rfl⟩
  · cases err with
    | none =>
      simp only [executeJobErr, List.filterMap_append, List.filterMap_cons,
        filterMap_startParent_map]
      simp
    | some e =>
      simp only [executeJobErr, List.filterMap_append, List.filterMap_cons,
        filterMap_startParent_map]
      simp
  · cases err <;> rfl
  · cases err <;> rfl

/-- C8: every created Job's ID is `<kind>-<unix>-<counter>` where the counter
is the smallest natural number whose candidate ID is absent from the live job
table at generation time. -/
theorem job_id_form_least_counter (st : Processor) (task : Runnable) (now : Nat) :
    ∃ c, (pushOk st task now).2.1.id = render task.kind now c ∧
      render task.kind now c ∉ st.jobTable.map Prod.fst ∧
      ∀ m, m < c → render task.kind now m ∈ st.jobTable.map Prod.fst := by
  rw [pushOk_job]
  exact initMetadata_least st.jobTable task now

/-- C5: on an open Processor, `PushJobLater` wraps the Task into a Job
carrying an assigned ID, `Pending` status and `Created` timestamp, registers
the Job in the live job table under its ID, and returns it without placing
anything on either lane's queue. -/
theorem pushJobLater_registers_without_queueing (st : Processor) (task : Runnable)
    (now : Nat) (h : st.closed = false) :
    st.PushJobLater (some task) now = Except.ok (pushOk st task now) ∧
    (pushOk st task now).2.1.task = task ∧
    (pushOk st task now).2.1.status = JStatus.pending ∧
    (pushOk st task now).2.1.created = some now ∧
    (∃ c, (pushOk st task now).2.1.id = render task.kind now c) ∧
    (pushOk st task now).2.2.jobTable =
      tblPut st.jobTable (pushOk st task now).2.1.id (pushOk st task now).1 ∧
    (pushOk st task now).2.2.heap = st.heap ++ [(pushOk st task now).2.1] ∧
    (pushOk st task now).2.2.seqQueue = st.seqQueue ∧
    (pushOk st task now).2.2.bgQueue = st.bgQueue := by
  obtain ⟨c, hid, _, _⟩ := initMetadata_least st.jobTable task now
  have hopen := pushOk_open st task now h
  refine ⟨rfl, ?_, ?_, ?_, ⟨c, ?_⟩, ?_, ?_, ?_, ?_⟩
  · rw [pushOk_job]; rfl
  · rw [pushOk_job]; rfl
  · rw [pushOk_job]; rfl
  · rw [pushOk_job]; exact hid
  · rw [hopen, pushOk_ref]
  · rw [hopen]
  · rw [hopen]
  · rw [hopen]

/-- A sequential Task used as the concrete input for the submission claims. -/
def taskIndex : Runnable := { kind := "IndexRepo", isSequential := true, performError := none }

/-- Witness for C5 on a fresh (open) Processor. -/
theorem pushJobLater_registers_without_queueing_witness :
    (NewProcessor 0 4).PushJobLater (some taskIndex) 42 =
      Except.ok (pushOk (NewProcessor 0 4) taskIndex 42) ∧
    (pushOk (NewProcessor 0 4) taskIndex 42).2.1.task = taskIndex ∧
    (pushOk (NewProcessor 0 4) taskIndex 42).2.1.status = JStatus.pending ∧
    (pushOk (NewProcessor 0 4) taskIndex 42).2.1.created = some 42 ∧
    (∃ c, (pushOk (NewProcessor 0 4) taskIndex 42).2.1.id
      = render taskIndex.kind 42 c) ∧
    (pushOk (NewProcessor 0 4) taskIndex 42).2.2.jobTable =
      tblPut (NewProcessor 0 4).jobTable (pushOk (NewProcessor 0 4) taskIndex 42).2.1.id
        (pushOk (NewProcessor 0 4) taskIndex 42).1 ∧
    (pushOk (NewProcessor 0 4) taskIndex 42).2.2.heap =
      (NewProcessor 0 4).heap ++ [(pushOk (NewProcessor 0 4) taskIndex 42).2.1] ∧
    (pushOk (NewProcessor 0 4) taskIndex 42).2.2.seqQueue = (NewProcessor 0 4).seqQueue ∧
    (pushOk (NewProcessor 0 4) taskIndex 42).2.2.bgQueue = (NewProcessor 0 4).bgQueue :=
  pushJobLater_registers_without_queueing (NewProcessor 0 4) taskIndex 42 rfl

/-- C10: submitting on a closed Processor still invokes the Task's `Init`
hook exactly once (one new `initLog` entry) and still returns a Job with an
assigned ID, `Created` timestamp and `Pending` status, but the job table and
both lane queues are left untouched — via `PushJobLater` and via `PushJob`
alike. -/
theorem push_on_closed_frame (st : Processor) (task : Runnable) (now : Nat)
    (h : st.closed = true) :
    st.PushJobLater (some task) now = Except.ok (pushOk st task now) ∧
    st.PushJob (some task) now = Except.ok (pushOk st task now) ∧
    (pushOk st task now).2.2.jobTable = st.jobTable ∧
    (pushOk st task now).2.2.seqQueue = st.seqQueue ∧
    (pushOk st task now).2.2.bgQueue = st.bgQueue ∧
    (pushOk st task now).2.2.initLog = st.initLog ++ [(pushOk st task now).2.1.id] ∧
    (pushOk st task now).2.1.status = JStatus.pending ∧
    (pushOk st task now).2.1.created = some now ∧
    (∃ c, (pushOk st task now).2.1.id = render task.kind now c) := by
  obtain ⟨c, hid, _, _⟩ := initMetadata_least st.jobTable task now
  have hclosed := pushOk_closed st task now h
  have hflag : (pushOk st task now).2.2.closed = true := by
    rw [pushOk_closed_flag]; exact h
  refine ⟨rfl, ?_, ?_, ?_, ?_, ?_, ?_, ?_, ⟨c, ?_⟩⟩
  · show (match pushJobInternal st (some task) now with
      | .error e => Except.error e
      | .ok (r, job, st') => Except.ok (r, job, st'.StartJob r))
      = Except.ok (pushOk st task now)
    have hstart : ((pushOk st task now).2.2).StartJob (pushOk st task now).1
        = (pushOk st task now).2.2 := by
      unfold Processor.StartJob
      rw [if_pos hflag]
    simp only [pushJobInternal]
    rw [hstart]
  · rw [hclosed]
  · rw [hclosed]
  · rw [hclosed]
  · rw [hclosed]
  · rw [pushOk_job]; rfl
  · rw [pushOk_job]; rfl
  · rw [pushOk_job]; exact hid

/-- The combined job-table invariant: well-formedness plus the absence of
terminal-status Jobs among the live entries. -/
def Inv (st : Processor) : Prop := WF st ∧ TableNonTerminal st

/-- Filtering a table can only drop keys. -/
theorem keys_filter_sub (tbl : List (String × Nat)) (p : String × Nat → Bool)
    (s : String) (h : s ∈ (tbl.filter p).map Prod.fst) : s ∈ tbl.map Prod.fst := by
  rcases List.mem_map.mp h with ⟨e, he, rfl⟩
  exact List.mem_map_of_mem Prod.fst (List.mem_filter.mp he).1

/-- Filtering a table preserves distinctness of keys. -/
theorem keys_filter_nodup (tbl : List (String × Nat)) (p : String × Nat → Bool)
    (h : (tbl.map Prod.fst).Nodup) : ((tbl.filter p).map Prod.fst).Nodup := by
  induction tbl with
  | nil => simp
  | cons e t ih =>
    simp only [List.map_cons, List.nodup_cons] at h
    by_cases hp : p e
    · rw [List.filter_cons_of_pos hp]
      simp only [List.map_cons, List.nodup_cons]
      exact ⟨fun hmem => h.1 (keys_filter_sub t p e.1 hmem), ih h.2⟩
    · rw [List.filter_cons_of_neg hp]
      exact ih h.2

/-- A heap update that changes neither identity nor status of the stored Job
preserves every slot's identity and status. -/
theorem updJob_pointwise (st : Processor) (r : Nat) (f : Job → Job)
    (hid : ∀ j, (f j).id = j.id) (hst : ∀ j, (f j).status = j.status) (q : Nat) :
    ((updJob st r f).heap.getD q default).id = (st.heap.getD q default).id ∧
    ((updJob st r f).heap.getD q default).status = (st.heap.getD q default).status := by
  unfold updJob setJob
  simp only
  by_cases hrq : r = q
  · subst hrq
    by_cases hlt : r < st.heap.length
    · rw [getD_set_self _ _ _ hlt]
      exact ⟨hid _, hst _⟩
    · rw [List.set_eq_of_length_le (Nat.le_of_not_lt hlt)]
      exact ⟨rfl, rfl⟩
  · rw [getD_set_ne _ _ _ _ hrq]
    exact ⟨rfl, rfl⟩

/-- A heap update never touches the job table. -/
theorem updJob_table (st : Processor) (r : Nat) (f : Job → Job) :
    (updJob st r f).jobTable = st.jobTable := rfl

/-- A heap update never changes the heap length. -/
theorem updJob_len (st : Processor) (r : Nat) (f : Job → Job) :
    (updJob st r f).heap.length = st.heap.length := by
  unfold updJob setJob
  simp

/-- The invariant transfers across any operation that keeps the table, the
heap length, and every slot's identity and status. -/
theorem inv_transfer (st st' : Processor)
    (htbl : st'.jobTable = st.jobTable)
    (hlen : st'.heap.length = st.heap.length)
    (hpt : ∀ r, (st'.heap.getD r default).id = (st.heap.getD r default).id ∧
      (st'.heap.getD r default).status = (st.heap.getD r default).status)
    (h : Inv st) : Inv st' := by
  obtain ⟨⟨hwf, hnd⟩, hnt⟩ := h
  refine ⟨⟨?_, ?_⟩, ?_⟩
  · intro e he
    rw [htbl] at he
    obtain ⟨h1, h2⟩ := hwf e he
    exact ⟨hlen ▸ h1, (hpt e.2).1.trans h2⟩
  · rw [htbl]; exact hnd
  · intro e he
    rw [htbl] at he
    rw [(hpt e.2).2]
    exact hnt e he

/-- The freshly constructed Processor satisfies the invariant. -/
theorem inv_new (njobs : Int) (numCPU : Nat) : Inv (NewProcessor njobs numCPU) := by
  refine ⟨⟨?_, ?_⟩, ?_⟩ <;> simp [NewProcessor, WF, TableNonTerminal]

/-- The status assigned at creation is `Pending`. -/
theorem pushOk_status (st : Processor) (task : Runnable) (now : Nat) :
    (pushOk st task now).2.1.status = JStatus.pending := by
  rw [pushOk_job]; rfl

/-- Job submission preserves the invariant: the new entry is registered
`Pending` under a fresh key at the fresh heap slot. -/
theorem inv_push (st : Processor) (task : Runnable) (now : Nat) (h : Inv st) :
    Inv (pushOk st task now).2.2 := by
  obtain ⟨⟨hwf, hnd⟩, hnt⟩ := h
  cases hc : st.closed with
  | true =>
    rw [pushOk_closed st task now hc]
    refine ⟨⟨?_, ?_⟩, ?_⟩
    · intro e he
      obtain ⟨h1, h2⟩ := hwf e he
      refine ⟨by simp; omega, ?_⟩
      rw [getD_append_lt _ _ _ h1]
      exact h2
    · exact hnd
    · intro e he
      rw [getD_append_lt _ _ _ (hwf e he).1]
      exact hnt e he
  | false =>
    rw [pushOk_open st task now hc]
    have hput : tblPut st.jobTable (pushOk st task now).2.1.id st.heap.length
        = ((pushOk st task now).2.1.id, st.heap.length) :: st.jobTable := by
      unfold tblPut
      rw [filter_of_fresh st.jobTable _ (pushOk_id_fresh st task now)]
    rw [hput]
    refine ⟨⟨?_, ?_⟩, ?_⟩
    · intro e he
      rcases List.mem_cons.mp he with rfl | he'
      · refine ⟨by simp, ?_⟩
        rw [getD_append_len]
      · obtain ⟨h1, h2⟩ := hwf e he'
        refine ⟨by simp; omega, ?_⟩
        rw [getD_append_lt _ _ _ h1]
        exact h2
    · simp only [List.map_cons, List.nodup_cons]
      exact ⟨pushOk_id_fresh st task now, hnd⟩
    · intro e he
      rcases List.mem_cons.mp he with rfl | he'
      · rw [getD_append_len]
        exact Or.inl (pushOk_status st task now)
      · rw [getD_append_lt _ _ _ (hwf e he').1]
        exact hnt e he'

/-- `StartJob` preserves the invariant (it only touches the queues). -/
theorem inv_start (st : Processor) (r : Nat) (h : Inv st) : Inv (st.StartJob r) :=
  inv_transfer st (st.StartJob r) (startJob_table st r)
    (by rw [startJob_heap]) (fun q => by rw [startJob_heap]; exact ⟨rfl, rfl⟩) h

/-- `Close` preserves the invariant. -/
theorem inv_close (st : Processor) (h : Inv st) : Inv st.Close := by
  have htbl : st.Close.jobTable = st.jobTable := by
    unfold Processor.Close; split <;> rfl
  have hheap : st.Close.heap = st.heap := by
    unfold Processor.Close; split <;> rfl
  exact inv_transfer st st.Close htbl (by rw [hheap]) (fun q => by rw [hheap]; exact ⟨rfl, rfl⟩) h

/-- `Begin` preserves the invariant. -/
theorem inv_begin (st : Processor) (h : Inv st) : Inv st.Begin := by
  have htbl : st.Begin.jobTable = st.jobTable := by
    unfold Processor.Begin; split <;> rfl
  have hheap : st.Begin.heap = st.heap := by
    unfold Processor.Begin; split <;> rfl
  exact inv_transfer st st.Begin htbl (by rw [hheap]) (fun q => by rw [hheap]; exact ⟨rfl, rfl⟩) h

/-- Dependency registration preserves the invariant (it only touches the
`parents` list and the fan-in counter). -/
theorem inv_dep (st : Processor) (c p : Nat) (h : Inv st) : Inv (addDependency st c p) := by
  have h1 := fun q => updJob_pointwise st c
    (fun j => { j with parents := j.parents ++ [p] }) (fun j => rfl) (fun j => rfl) q
  have h2 := fun q => updJob_pointwise (updJob st c (fun j => { j with parents := j.parents ++ [p] })) p
    (fun j => { j with waiting := j.waiting + 1 }) (fun j => rfl) (fun j => rfl) q
  refine inv_transfer st (addDependency st c p) rfl ?_ (fun q => ?_) h
  · show (updJob _ p _).heap.length = st.heap.length
    rw [updJob_len, updJob_len]
  · exact ⟨(h2 q).1.trans (h1 q).1, (h2 q).2.trans (h1 q).2⟩

/-- Identity and (away from the executing slot) status survive to the point
just before the terminal status write. -/
theorem execMid_getD (st : Processor) (ref t1 t2 : Nat) (h : ref < st.heap.length)
    (r : Nat) :
    ((execMid st ref t1 t2).heap.getD r default).id = (st.heap.getD r default).id ∧
    (r ≠ ref → ((execMid st ref t1 t2).heap.getD r default).status
      = (st.heap.getD r default).status) := by
  have hheap : (execMid st ref t1 t2).heap
      = ((afterPerform st ref t1 t2).NotifyDone ref).2.heap := by
    unfold execMid
    rw [popJob_heap, foldl_startJob_heap]
  have hN := notifyAux_preserves
    ((afterPerform st ref t1 t2).heap.getD ref default).parents [] (afterPerform st ref t1 t2)
  obtain ⟨hNid, hNst, _⟩ := hN.2.2 r
  constructor
  · rw [hheap]
    show ((((afterPerform st ref t1 t2).NotifyDone ref).2).heap.getD r default).id = _
    rw [show ((afterPerform st ref t1 t2).NotifyDone ref).2 = (notifyAux
      ((afterPerform st ref t1 t2).heap.getD ref default).parents []
      (afterPerform st ref t1 t2)).2 from rfl]
    rw [hNid]
    by_cases hr : r = ref
    · subst hr
      rw [afterPerform_getD_self st r t1 t2 h]
    · rw [afterPerform_getD_ne st ref t1 t2 r hr]
  · intro hr
    rw [hheap]
    show ((((afterPerform st ref t1 t2).NotifyDone ref).2).heap.getD r default).status = _
    rw [show ((afterPerform st ref t1 t2).NotifyDone ref).2 = (notifyAux
      ((afterPerform st ref t1 t2).heap.getD ref default).parents []
      (afterPerform st ref t1 t2)).2 from rfl]
    rw [hNst, afterPerform_getD_ne st ref t1 t2 r hr]

/-- The job table just before the terminal status write is the original table
with the executing Job's key removed. -/
theorem execMid_table (st : Processor) (ref t1 t2 : Nat) :
    (execMid st ref t1 t2).jobTable
      = st.jobTable.filter (fun e => e.1 != (st.heap.getD ref default).id) := by
  unfold execMid Processor.popJob
  simp only
  rw [foldl_startJob_table]
  rw [show ((afterPerform st ref t1 t2).NotifyDone ref).2 = (notifyAux
    ((afterPerform st ref t1 t2).heap.getD ref default).parents []
    (afterPerform st ref t1 t2)).2 from rfl]
  rw [(notifyAux_preserves _ [] _).1, afterPerform_table]

/-- Setting the terminal status after `popJob` preserves the invariant: the
terminal write lands on a slot no live table entry points to. -/
theorem inv_exec_aux (st : Processor) (ref t1 t2 : Nat) (s : JStatus)
    (h : ref < st.heap.length) (hInv : Inv st) :
    Inv (updJob (execMid st ref t1 t2) ref (fun j => { j with status := s })) := by
  obtain ⟨⟨hwf, hnd⟩, hnt⟩ := hInv
  have hMlen := execMid_len st ref t1 t2
  have hMtbl := execMid_table st ref t1 t2
  have hElen : (updJob (execMid st ref t1 t2) ref
      (fun j => { j with status := s })).heap.length = st.heap.length := by
    rw [updJob_len, hMlen]
  have hmem : ∀ e, e ∈ (execMid st ref t1 t2).jobTable →
      e ∈ st.jobTable ∧ e.1 ≠ (st.heap.getD ref default).id := by
    intro e he
    rw [hMtbl] at he
    obtain ⟨h1, h2⟩ := List.mem_filter.mp he
    refine ⟨h1, ?_⟩
    simpa [bne] using h2
  have hne : ∀ e, e ∈ (execMid st ref t1 t2).jobTable → e.2 ≠ ref := by
    intro e he heq
    obtain ⟨h1, h2⟩ := hmem e he
    exact h2 ((hwf e h1).2.symm.trans (by rw [heq]))
  refine ⟨⟨?_, ?_⟩, ?_⟩
  · intro e he
    rw [updJob_table] at he
    obtain ⟨h1, _⟩ := hmem e he
    refine ⟨hElen ▸ (hwf e h1).1, ?_⟩
    show ((updJob _ ref _).heap.getD e.2 default).id = e.1
    unfold updJob setJob
    simp only
    rw [getD_set_ne _ _ _ _ (fun hx => hne e he hx.symm)]
    rw [(execMid_getD st ref t1 t2 h e.2).1]
    exact (hwf e h1).2
  · rw [updJob_table, hMtbl]
    exact keys_filter_nodup st.jobTable _ hnd
  · intro e he
    rw [updJob_table] at he
    obtain ⟨h1, _⟩ := hmem e he
    show ((updJob _ ref _).heap.getD e.2 default).status = JStatus.pending ∨
      ((updJob _ ref _).heap.getD e.2 default).status = JStatus.running
    unfold updJob setJob
    simp only
    rw [getD_set_ne _ _ _ _ (fun hx => hne e he hx.symm)]
    rw [(execMid_getD st ref t1 t2 h e.2).2 (hne e he)]
    exact hnt e h1

/-- Execution of a Job preserves the invariant. -/
theorem inv_exec (st : Processor) (ref t1 t2 : Nat) (h : ref < st.heap.length)
    (hInv : Inv st) : Inv (st.executeJob ref t1 t2).1 := by
  cases herr : (st.heap.getD ref default).task.performError with
  | none =>
    simp only [Processor.executeJob, herr, executeJobErr]
    exact inv_exec_aux st ref t1 t2 JStatus.success h hInv
  | some e =>
    simp only [Processor.executeJob, herr, executeJobErr]
    exact inv_exec_aux st ref t1 t2 JStatus.failed h hInv

/-- Every reachable Processor state satisfies the table invariant. -/
theorem Inv_reachable : ∀ st : Processor, Reachable st → Inv st := by
  intro st h
  induction h with
  | new njobs numCPU => exact inv_new njobs numCPU
  | push st task now _ ih => exact inv_push st task now ih
  | start st ref _ _ ih => exact inv_start st ref ih
  | exec st ref t1 t2 _ hlt ih => exact inv_exec st ref t1 t2 hlt ih
  | close st _ ih => exact inv_close st ih
  | begin st _ ih => exact inv_begin st ih
  | dep st c p _ _ _ ih => exact inv_dep st c p ih

/-- C9: in every reachable Processor state, each Job present in the live job
table has non-terminal status (`Pending` or `Running`): Jobs are inserted
`Pending`, and the terminal status write happens only after `popJob` has
removed the Job, so a table lookup never yields `Success` or `Failed`. -/
theorem reachable_table_nonterminal (st : Processor) (h : Reachable st) :
    TableNonTerminal st :=
  (Inv_reachable st h).2

/-- Witness for C9: the invariant at a concrete reachable state holding one
pending Job. -/
theorem reachable_table_nonterminal_witness :
    TableNonTerminal (pushOk (NewProcessor 2 4) taskIndex 9).2.2 :=
  reachable_table_nonterminal (pushOk (NewProcessor 2 4) taskIndex 9).2.2
    (Reachable.push (NewProcessor 2 4) taskIndex 9 (Reachable.new 2 4))

/-- Witness for C10 on a closed Processor. -/
theorem push_on_closed_frame_witness :
    (NewProcessor 0 4).Close.PushJobLater (some taskIndex) 42 =
      Except.ok (pushOk (NewProcessor 0 4).Close taskIndex 42) ∧
    (NewProcessor 0 4).Close.PushJob (some taskIndex) 42 =
      Except.ok (pushOk (NewProcessor 0 4).Close taskIndex 42) ∧
    (pushOk (NewProcessor 0 4).Close taskIndex 42).2.2.jobTable =
      (NewProcessor 0 4).Close.jobTable ∧
    (pushOk (NewProcessor 0 4).Close taskIndex 42).2.2.seqQueue =
      (NewProcessor 0 4).Close.seqQueue ∧
    (pushOk (NewProcessor 0 4).Close taskIndex 42).2.2.bgQueue =
      (NewProcessor 0 4).Close.bgQueue ∧
    (pushOk (NewProcessor 0 4).Close taskIndex 42).2.2.initLog =
      (NewProcessor 0 4).Close.initLog
        ++ [(pushOk (NewProcessor 0 4).Close taskIndex 42).2.1.id] ∧
    (pushOk (NewProcessor 0 4).Close taskIndex 42).2.1.status = JStatus.pending ∧
    (pushOk (NewProcessor 0 4).Close taskIndex 42).2.1.created = some 42 ∧
    (∃ c, (pushOk (NewProcessor 0 4).Close taskIndex 42).2.1.id
      = render taskIndex.kind 42 c) :=
  push_on_closed_frame (NewProcessor 0 4).Close taskIndex 42 rfl

end Ferryd
